import Mathlib

/-!
Verification development for the UW course-catalog scraper
(src/misc/class_scraper.py).

The script's parsing core is embedded as executable Lean definitions:

* character classes used by Python's regular expression engine for
  str patterns (the set matched by the class written backslash-s);
* the normalization pipeline of lines 68-70 of the source
  (NFKC-normalize, replace U+00A0 by a space, collapse whitespace
  runs to single spaces, strip);
* the match semantics of the compiled pattern at lines 45-47,

  code:[A-Z]+(space+[A-Z]+)* space+ digits [A-Z]?, then space+,
  then a lazy title, then space* then a parenthesised credits group,
  then discarded trailing tags,

  realised as a deterministic parser.  All character classes of the
  code part are pairwise disjoint, so the regex engine's greedy
  choices there are forced; the only live backtracking is the greedy
  whitespace run before the lazy title group, which tryTitle replays
  longest-first exactly as the engine does.  The trailing
  space* (.*)? $ part of the pattern matches unconditionally on
  newline-free input, and the normalized input never contains a
  newline, so it does not appear in the parser.
* department-link discovery (lines 27-34), the startup
  configuration check (lines 12-15), and the per-department insert
  loop with its error reporting (lines 50-90), the latter as an
  explicit event trace.
-/

namespace ClassScraper

/-- Code points Python treats as whitespace for str regular expressions
and for str.strip: ASCII whitespace, the C1 separators, NEL, NBSP and
the Unicode space/line/paragraph separators. -/
def pySpaceCodes : List Nat :=
  [9, 10, 11, 12, 13, 28, 29, 30, 31, 32, 133, 160, 0x1680,
   0x2000, 0x2001, 0x2002, 0x2003, 0x2004, 0x2005, 0x2006, 0x2007,
   0x2008, 0x2009, 0x200A, 0x2028, 0x2029, 0x202F, 0x205F, 0x3000]

/-- Whitespace test used by the embedded regex and strip operations. -/
def pySpace (c : Char) : Bool := decide (c.toNat ∈ pySpaceCodes)

/-- The class [A-Z] of the header pattern (exactly the ASCII capitals,
also on str patterns). -/
def isUpperAZ (c : Char) : Bool := decide (65 ≤ c.toNat ∧ c.toNat ≤ 90)

/-- ASCII digits 0-9.  This is NOT the pattern's digit class (see
pyDigit); it is kept as the digit notion of the ASCII code-shape test
codeShape. -/
def isDigit09 (c : Char) : Bool := decide (48 ≤ c.toNat ∧ c.toNat ≤ 57)

/-- The digit class matched by backslash-d of the header pattern: on
Python str patterns it is every Unicode decimal digit (category Nd).
The ranges below are the Nd ranges of the Unicode version shipped with
the source's CPython runtime (Unicode 14.0). -/
def pyDigit (c : Char) : Bool :=
  let n := c.toNat
  (decide (48 ≤ n ∧ n ≤ 57)) ||
  (decide (1632 ≤ n ∧ n ≤ 1641)) ||
  (decide (1776 ≤ n ∧ n ≤ 1785)) ||
  (decide (1984 ≤ n ∧ n ≤ 1993)) ||
  (decide (2406 ≤ n ∧ n ≤ 2415)) ||
  (decide (2534 ≤ n ∧ n ≤ 2543)) ||
  (decide (2662 ≤ n ∧ n ≤ 2671)) ||
  (decide (2790 ≤ n ∧ n ≤ 2799)) ||
  (decide (2918 ≤ n ∧ n ≤ 2927)) ||
  (decide (3046 ≤ n ∧ n ≤ 3055)) ||
  (decide (3174 ≤ n ∧ n ≤ 3183)) ||
  (decide (3302 ≤ n ∧ n ≤ 3311)) ||
  (decide (3430 ≤ n ∧ n ≤ 3439)) ||
  (decide (3558 ≤ n ∧ n ≤ 3567)) ||
  (decide (3664 ≤ n ∧ n ≤ 3673)) ||
  (decide (3792 ≤ n ∧ n ≤ 3801)) ||
  (decide (3872 ≤ n ∧ n ≤ 3881)) ||
  (decide (4160 ≤ n ∧ n ≤ 4169)) ||
  (decide (4240 ≤ n ∧ n ≤ 4249)) ||
  (decide (6112 ≤ n ∧ n ≤ 6121)) ||
  (decide (6160 ≤ n ∧ n ≤ 6169)) ||
  (decide (6470 ≤ n ∧ n ≤ 6479)) ||
  (decide (6608 ≤ n ∧ n ≤ 6617)) ||
  (decide (6784 ≤ n ∧ n ≤ 6793)) ||
  (decide (6800 ≤ n ∧ n ≤ 6809)) ||
  (decide (6992 ≤ n ∧ n ≤ 7001)) ||
  (decide (7088 ≤ n ∧ n ≤ 7097)) ||
  (decide (7232 ≤ n ∧ n ≤ 7241)) ||
  (decide (7248 ≤ n ∧ n ≤ 7257)) ||
  (decide (42528 ≤ n ∧ n ≤ 42537)) ||
  (decide (43216 ≤ n ∧ n ≤ 43225)) ||
  (decide (43264 ≤ n ∧ n ≤ 43273)) ||
  (decide (43472 ≤ n ∧ n ≤ 43481)) ||
  (decide (43504 ≤ n ∧ n ≤ 43513)) ||
  (decide (43600 ≤ n ∧ n ≤ 43609)) ||
  (decide (44016 ≤ n ∧ n ≤ 44025)) ||
  (decide (65296 ≤ n ∧ n ≤ 65305)) ||
  (decide (66720 ≤ n ∧ n ≤ 66729)) ||
  (decide (68912 ≤ n ∧ n ≤ 68921)) ||
  (decide (69734 ≤ n ∧ n ≤ 69743)) ||
  (decide (69872 ≤ n ∧ n ≤ 69881)) ||
  (decide (69942 ≤ n ∧ n ≤ 69951)) ||
  (decide (70096 ≤ n ∧ n ≤ 70105)) ||
  (decide (70384 ≤ n ∧ n ≤ 70393)) ||
  (decide (70736 ≤ n ∧ n ≤ 70745)) ||
  (decide (70864 ≤ n ∧ n ≤ 70873)) ||
  (decide (71248 ≤ n ∧ n ≤ 71257)) ||
  (decide (71360 ≤ n ∧ n ≤ 71369)) ||
  (decide (71472 ≤ n ∧ n ≤ 71481)) ||
  (decide (71904 ≤ n ∧ n ≤ 71913)) ||
  (decide (72016 ≤ n ∧ n ≤ 72025)) ||
  (decide (72784 ≤ n ∧ n ≤ 72793)) ||
  (decide (73040 ≤ n ∧ n ≤ 73049)) ||
  (decide (73120 ≤ n ∧ n ≤ 73129)) ||
  (decide (92768 ≤ n ∧ n ≤ 92777)) ||
  (decide (92864 ≤ n ∧ n ≤ 92873)) ||
  (decide (93008 ≤ n ∧ n ≤ 93017)) ||
  (decide (120782 ≤ n ∧ n ≤ 120831)) ||
  (decide (123200 ≤ n ∧ n ≤ 123209)) ||
  (decide (123632 ≤ n ∧ n ≤ 123641)) ||
  (decide (125264 ≤ n ∧ n ≤ 125273)) ||
  (decide (130032 ≤ n ∧ n ≤ 130041))

/-- U+00A0 NO-BREAK SPACE. -/
def nbsp : Char := Char.ofNat 160

/-- Code points whose NFKC normal form is a single U+0020 space:
NBSP, the U+2000 family, narrow NBSP, medium mathematical space and
ideographic space. -/
def compatSpaceCodes : List Nat :=
  [160, 0x2000, 0x2001, 0x2002, 0x2003, 0x2004, 0x2005, 0x2006, 0x2007,
   0x2008, 0x2009, 0x200A, 0x202F, 0x205F, 0x3000]

/-- Modelled from the library call unicodedata.normalize with form NFKC
at line 69 of the source (the Unicode normalization algorithm itself is
not part of this repository).  On the alphabet the theorems below rely
on - ASCII text, Unicode space characters and Unicode decimal digits -
NFKC acts characterwise and this map is exact: the compatibility space
characters map to U+0020, and ASCII, the remaining whitespace and
every decimal digit are NFKC-invariant.  Compatibility decompositions
of other characters (for example a fullwidth or parenthesized form
expanding to text containing an ASCII parenthesis) are outside this
model; no theorem below depends on the map's value there - statements
about raw lines are either made after this normalization step or are
restricted to the exact alphabet. -/
def nfkcChar (c : Char) : Char :=
  if c.toNat ∈ compatSpaceCodes then ' ' else c

/-- Line 69 of the source: str.replace of U+00A0 by a space. -/
def replaceNbsp (l : List Char) : List Char :=
  l.map (fun c => if c = nbsp then ' ' else c)

/-- The composite character map of line 69: the NFKC model followed by
the explicit NBSP replacement. -/
def normChar (c : Char) : Char :=
  if nfkcChar c = nbsp then ' ' else nfkcChar c

/-- Line 70 of the source: re.sub replacing each maximal whitespace run
by one space.  The flag records whether the previous character was part
of a whitespace run. -/
def collapseAux : Bool → List Char → List Char
  | _, [] => []
  | prevWs, c :: t =>
    if pySpace c then
      if prevWs then collapseAux true t else ' ' :: collapseAux true t
    else c :: collapseAux false t

/-- Whitespace-run collapsing starting outside a run. -/
def collapseWs (l : List Char) : List Char := collapseAux false l

/-- Python str.strip: drop leading and trailing whitespace. -/
def pyStrip (l : List Char) : List Char :=
  ((l.dropWhile pySpace).reverse.dropWhile pySpace).reverse

/-- Lines 69-70 of the source: full normalization of a raw header
line before matching. -/
def normalizeModel (l : List Char) : List Char :=
  pyStrip (collapseWs (replaceNbsp (l.map nfkcChar)))

/-- The fuelled loop consuming the code group of the header pattern
after its leading letter block: zero or more (whitespace+ letters+)
groups, then whitespace+ digits+ and an optional single capital.
Returns the consumed code text and the unconsumed remainder.  The fuel
only bounds the recursion; each iteration consumes at least one
character, so fuel exceeding the input length never runs out. -/
def codeLoop : Nat → List Char → List Char → Option (List Char × List Char)
  | 0, _, _ => none
  | fuel + 1, acc, s =>
    let w := s.takeWhile pySpace
    let r := s.dropWhile pySpace
    if w = [] then none
    else
      let l := r.takeWhile isUpperAZ
      let r2 := r.dropWhile isUpperAZ
      if l = [] then
        let d := r.takeWhile pyDigit
        let r3 := r.dropWhile pyDigit
        if d = [] then none
        else
          match r3 with
          | [] => some (acc ++ w ++ d, [])
          | c :: r4 =>
            if isUpperAZ c then some (acc ++ w ++ d ++ [c], r4)
            else some (acc ++ w ++ d, c :: r4)
      else codeLoop fuel (acc ++ w ++ l) r2

/-- The code group of the header pattern: a nonempty leading letter
block followed by the codeLoop tail. -/
def parseCode (s : List Char) : Option (List Char × List Char) :=
  if s.takeWhile isUpperAZ = [] then none
  else codeLoop (s.length + 1) (s.takeWhile isUpperAZ) (s.dropWhile isUpperAZ)

/-- The part of the pattern checked after each lazy title extension:
whitespace*, an opening parenthesis, the credits class of
non-closing-parenthesis characters, and the closing parenthesis.
Returns the whitespace run, the credits text and the tail after the
closing parenthesis. -/
def parenAfter (s : List Char) : Option (List Char × List Char × List Char) :=
  match s.dropWhile pySpace with
  | a :: r2 =>
    if a = '(' then
      match r2.dropWhile (fun c => c != ')') with
      | b :: tl =>
        if b = ')' then
          some (s.takeWhile pySpace, r2.takeWhile (fun c => c != ')'), tl)
        else none
      | [] => none
    else none
  | [] => none

/-- The lazy title group: absorb one character at a time (shortest
first, as the regex engine does for a lazy quantifier) and after each
extension try to match the parenthesised credits group. -/
def scanTitle : List Char → List Char → Option (List Char × List Char × List Char × List Char)
  | _, [] => none
  | acc, c :: s' =>
    match parenAfter s' with
    | some (w2, cr, tl) => some (acc ++ [c], w2, cr, tl)
    | none => scanTitle (acc ++ [c]) s'

/-- The greedy whitespace run between the code group and the title:
the engine first takes the whole run and gives characters back one at
a time; each choice leaves at least one whitespace character consumed. -/
def tryTitle (rest : List Char) : Nat → Option (Nat × List Char × List Char × List Char × List Char)
  | 0 => none
  | t + 1 =>
    match scanTitle [] (rest.drop (t + 1)) with
    | some (ti, w2, cr, tl) => some (t + 1, ti, w2, cr, tl)
    | none => tryTitle rest t

/-- Match semantics of header_pattern (lines 45-47 of the source) on a
newline-free line, returning the code, title and credits groups. -/
def headerMatch (v : List Char) : Option (List Char × List Char × List Char) :=
  match parseCode v with
  | none => none
  | some (code, rest) =>
    if rest.takeWhile pySpace = [] then none
    else
      match tryTitle rest (rest.takeWhile pySpace).length with
      | some (_, ti, _, cr, _) => some (code, ti, cr)
      | none => none

/-- The record built at lines 73-78 of the source. -/
structure CourseRecord where
  code : String
  title : String
  credits : String
  deriving DecidableEq, Repr

/-- Lines 68-79 of the source: normalize a raw header line, match it
against the header pattern, and on success emit the course record with
the spaces of the code group removed. -/
def parseLine (s : String) : Option CourseRecord :=
  match headerMatch (normalizeModel s.data) with
  | some (code, ti, cr) =>
    some ⟨String.mk (code.filter (fun c => c != ' ')), String.mk ti, String.mk cr⟩
  | none => none

/-- The list of course records collected from the header lines of one
department page (line 79 of the source appends exactly the records of
the matching lines, in order). -/
def collectCourses (headers : List String) : List CourseRecord :=
  headers.filterMap parseLine

/-- Executable shape test for a cleaned course code with ASCII digits:
one or more capitals, then one or more ASCII digits, then at most one
capital.  This is the shape the original C9 claim asserts; the program
does not guarantee it (see C9_counterexample). -/
def codeShape (l : List Char) : Bool :=
  let L := l.takeWhile isUpperAZ
  let r := l.dropWhile isUpperAZ
  let D := r.takeWhile isDigit09
  let r2 := r.dropWhile isDigit09
  (!L.isEmpty) && (!D.isEmpty) &&
    (r2.isEmpty || (match r2 with | [u] => isUpperAZ u | _ => false))

/-- Executable shape test for a cleaned course code with the pattern's
actual digit class: one or more capitals, then one or more Unicode
decimal digits, then at most one capital. -/
def codeShapeU (l : List Char) : Bool :=
  let L := l.takeWhile isUpperAZ
  let r := l.dropWhile isUpperAZ
  let D := r.takeWhile pyDigit
  let r2 := r.dropWhile pyDigit
  (!L.isEmpty) && (!D.isEmpty) &&
    (r2.isEmpty || (match r2 with | [u] => isUpperAZ u | _ => false))

/-- ARABIC-INDIC DIGIT THREE, U+0663: a Unicode decimal digit matched
by the pattern's backslash-d, left unchanged by NFKC, and outside
ASCII 0-9. -/
def arabicThree : Char := Char.ofNat 0x663

/-- ARABIC-INDIC DIGIT ZERO, U+0660. -/
def arabicZero : Char := Char.ofNat 0x660

/-- Whether a line contains a parenthesis group: an opening
parenthesis with a closing parenthesis somewhere after it (the first
opening parenthesis suffices: any later closing parenthesis closes it). -/
def hasParenGroup : List Char → Bool
  | [] => false
  | c :: t => if c = '(' then t.contains ')' else hasParenGroup t

/-- Image of one character under whitespace-run collapsing: whitespace
becomes a space, everything else is untouched.  The collapsed line is
a sublist of the input mapped through this. -/
def wsToSpace (c : Char) : Char := if pySpace c then ' ' else c

/-- One line differs from another by replacing each single regular
space with a nonempty run of whitespace characters (non-breaking
spaces included) while every other character is kept unchanged. -/
inductive SpaceExpand : List Char → List Char → Prop
  | nil : SpaceExpand [] []
  | keep {c : Char} {a b : List Char} :
      c ≠ ' ' → SpaceExpand a b → SpaceExpand (c :: a) (c :: b)
  | expand (w : List Char) {a b : List Char} :
      w ≠ [] → (∀ c ∈ w, pySpace c = true) → SpaceExpand a b →
      SpaceExpand (' ' :: a) (w ++ b)

/-- Line 20 of the source: the catalog root URL. -/
def base_url : String := "https://www.washington.edu/students/crscat/"

/-- An anchor element of the index page: its optional href attribute
and its text. -/
structure Anchor where
  href : Option String
  text : String

/-- Whether the first list is a prefix of the second (used to realise
Python's substring and endswith tests executably). -/
def prefixB : List Char → List Char → Bool
  | [], _ => true
  | _ :: _, [] => false
  | a :: n', b :: h' => a == b && prefixB n' h'

/-- Whether the first list occurs as a contiguous substring of the
second: Python's `in` operator on str. -/
def infixB (n : List Char) : List Char → Bool
  | [] => prefixB n []
  | c :: h' => prefixB n (c :: h') || infixB n h'

/-- Whether the first list is a suffix of the second: Python's
str.endswith. -/
def suffixB (n h : List Char) : Bool := prefixB n.reverse h.reverse

/-- Lines 29-34 of the source: the department entry built from one
anchor, or none when the link filter rejects it (no href, empty href,
not an .html file, a glossary link, a path separator, or a name too
short). -/
def departmentEntry (a : Anchor) : Option (String × String × String) :=
  match a.href with
  | none => none
  | some h =>
    if (!(h.data == [])) && suffixB ".html".data h.data &&
        (!(infixB "glossary".data h.data)) && (!(h.data.contains '/')) &&
        decide (5 < h.data.length) then
      some (String.mk (h.data.take (h.data.length - 5)),
            String.mk (pyStrip a.text.data),
            String.mk (base_url.data ++ h.data))
    else none

/-- Lines 27-34 of the source: all department entries discovered on
the index page, in document order. -/
def discoverDepartments (anchors : List Anchor) : List (String × String × String) :=
  anchors.filterMap departmentEntry

/-- Python truthiness of an optional string: false for a missing value
and for the empty string. -/
def pyTruthy (o : Option String) : Bool :=
  match o with
  | none => false
  | some s => !(s.data.isEmpty)

/-- Lines 12-15 of the source: read the two configuration values from
the environment and raise a ValueError unless both are truthy. -/
def startupCheck (env : String → Option String) : Except String Unit :=
  if (!(pyTruthy (env "SUPABASE_URL"))) || (!(pyTruthy (env "SUPABASE_KEY"))) then
    Except.error "SUPABASE_URL and SUPABASE_KEY must be set in .env file."
  else Except.ok ()

/-- An environment in which both configuration names are present but
the endpoint URL is the empty string. -/
def envUrlEmpty : String → Option String := fun n =>
  if n = "SUPABASE_URL" then some ""
  else if n = "SUPABASE_KEY" then some "service-key" else none

/-- An environment in which both configuration values are present and
nonempty. -/
def envGood : String → Option String := fun n =>
  if n = "SUPABASE_URL" then some "https://example.supabase.co"
  else if n = "SUPABASE_KEY" then some "service-key" else none

/-- The response returned by the remote insert call, as far as the
source inspects it: an error indicator that may be missing or falsy
(modelled by none and the empty string) or carry an error text. -/
structure InsertResponse where
  error : Option String

/-- Observable effects of the per-department loop: a call of the
insert operation, a line printed to standard output, or a raised
exception (which the loop in fact never produces). -/
inductive ScrapeEvent where
  | insertCall (table : String) (batch : List CourseRecord)
  | printed (line : String)
  | raised (msg : String)
  deriving DecidableEq

/-- Lines 50-88 of the source for one department: print the scraping
banner; when the course list is nonempty, call insert once and print
either the error line (when the response carries a truthy error
indicator) or the success line.  No event is ever raised. -/
def deptEvents (dep_name : String) (courses : List CourseRecord)
    (resp : InsertResponse) : List ScrapeEvent :=
  ScrapeEvent.printed ("Scraping " ++ dep_name ++ "...") ::
    (if courses.isEmpty then []
     else
       ScrapeEvent.insertCall "uw_courses" courses ::
         (if pyTruthy resp.error then
            [ScrapeEvent.printed ("Error inserting courses for " ++ dep_name ++
              ": " ++ resp.error.getD "")]
          else
            [ScrapeEvent.printed ("Inserted " ++ toString courses.length ++
              " courses for " ++ dep_name ++ ".")]))

/-- The whole department loop: departments are processed strictly in
order, each contributing its events regardless of earlier outcomes. -/
def pipelineEvents : List (String × List CourseRecord × InsertResponse) →
    List ScrapeEvent
  | [] => []
  | d :: rest => deptEvents d.1 d.2.1 d.2.2 ++ pipelineEvents rest

/-- Recogniser for insert-call events. -/
def isInsertCall : ScrapeEvent → Bool
  | ScrapeEvent.insertCall _ _ => true
  | _ => false

section CharFacts

lemma pySpace_space : pySpace ' ' = true := by decide

lemma pySpace_lparen : pySpace '(' = false := by decide

lemma upper_not_pySpace {c : Char} (h : isUpperAZ c = true) : pySpace c = false := by
  have hb : 65 ≤ c.toNat ∧ c.toNat ≤ 90 := by simpa [isUpperAZ] using h
  simp only [pySpace, pySpaceCodes, decide_eq_false_iff_not]
  intro hmem
  simp only [List.mem_cons, List.not_mem_nil, or_false] at hmem
  omega

lemma pyDigit_not_pySpace {c : Char} (h : pyDigit c = true) : pySpace c = false := by
  simp only [pyDigit, Bool.or_eq_true, decide_eq_true_eq] at h
  simp only [pySpace, pySpaceCodes, decide_eq_false_iff_not]
  intro hmem
  simp only [List.mem_cons, List.not_mem_nil, or_false] at hmem
  omega

lemma pyDigit_not_upper {c : Char} (h : pyDigit c = true) : isUpperAZ c = false := by
  simp only [pyDigit, Bool.or_eq_true, decide_eq_true_eq] at h
  simp only [isUpperAZ, decide_eq_false_iff_not]
  omega

lemma upper_not_pyDigit {c : Char} (h : isUpperAZ c = true) : pyDigit c = false := by
  simp only [isUpperAZ, decide_eq_true_eq] at h
  rw [Bool.eq_false_iff]
  intro hcontra
  simp only [pyDigit, Bool.or_eq_true, decide_eq_true_eq] at hcontra
  omega

lemma contains_iff_mem {l : List Char} {a : Char} : l.contains a = true ↔ a ∈ l := by
  simp [List.contains, List.elem_iff]

end CharFacts

section ListHelpers

variable {α : Type} {p q : α → Bool}

lemma head?_dropWhile {l : List α} {a : α} (h : (l.dropWhile p).head? = some a) :
    p a = false := by
  have h2 := List.head?_dropWhile_not p l
  rw [h] at h2
  exact h2

lemma takeWhile_all_append :
    ∀ (w r : List α), (∀ c ∈ w, p c = true) → (∀ a, r.head? = some a → p a = false) →
      (w ++ r).takeWhile p = w ∧ (w ++ r).dropWhile p = r := by
  intro w
  induction w with
  | nil =>
    intro r _ hr
    cases r with
    | nil => simp
    | cons a r' =>
      have := hr a rfl
      simp [List.takeWhile_cons, List.dropWhile_cons, this]
  | cons c w' ih =>
    intro r hw hr
    have hc : p c = true := hw c (List.mem_cons_self c w')
    have := ih r (fun x hx => hw x (List.mem_cons_of_mem c hx)) hr
    simp [List.takeWhile_cons, List.dropWhile_cons, hc, this.1, this.2]

lemma filter_eq_nil_of {l : List α} (h : ∀ c ∈ l, p c = false) : l.filter p = [] := by
  induction l with
  | nil => rfl
  | cons a t ih =>
    have ha := h a (List.mem_cons_self a t)
    simp [List.filter_cons, ha, ih (fun x hx => h x (List.mem_cons_of_mem a hx))]

lemma filter_eq_self_of {l : List α} (h : ∀ c ∈ l, p c = true) : l.filter p = l := by
  induction l with
  | nil => rfl
  | cons a t ih =>
    have ha := h a (List.mem_cons_self a t)
    simp [List.filter_cons, ha, ih (fun x hx => h x (List.mem_cons_of_mem a hx))]

lemma filter_congr_of {l : List α} (h : ∀ c ∈ l, p c = q c) :
    l.filter p = l.filter q := by
  induction l with
  | nil => rfl
  | cons a t ih =>
    have ha := h a (List.mem_cons_self a t)
    have iht := ih (fun x hx => h x (List.mem_cons_of_mem a hx))
    by_cases hq : q a = true
    · simp [List.filter_cons, hq, ha ▸ hq, iht]
    · have hq' : q a = false := Bool.eq_false_iff.mpr hq
      simp [List.filter_cons, hq', ha ▸ hq', iht]

lemma take_all_of_le_takeWhile :
    ∀ (l : List α) (t : Nat), t ≤ (l.takeWhile p).length →
      ∀ c ∈ l.take t, p c = true := by
  intro l
  induction l with
  | nil => intro t _ c hc; simp at hc
  | cons a l' ih =>
    intro t ht c hc
    by_cases hpa : p a = true
    · cases t with
      | zero => simp at hc
      | succ t' =>
        rw [List.takeWhile_cons, if_pos hpa] at ht
        simp only [List.take_succ_cons, List.mem_cons] at hc
        rcases hc with rfl | hc
        · exact hpa
        · exact ih t' (Nat.le_of_succ_le_succ ht) c hc
    · have : p a = false := Bool.eq_false_iff.mpr hpa
      rw [List.takeWhile_cons, if_neg (by simp [this])] at ht
      simp at ht
      subst ht
      simp at hc

end ListHelpers

/-- Soundness of the fuelled loop for the code group: on success, the
consumed text extends the accumulator, reassembles with the remainder
to the input, and after discarding whitespace consists of capitals,
then digits, then at most one capital. -/
lemma codeLoop_sound :
    ∀ (n : Nat) (acc s code rest : List Char),
      codeLoop n acc s = some (code, rest) →
      ∃ m, code = acc ++ m ∧ s = m ++ rest ∧
        ∃ L D T, m.filter (fun c => !(pySpace c)) = L ++ (D ++ T) ∧
          (∀ c ∈ L, isUpperAZ c = true) ∧ D ≠ [] ∧ (∀ c ∈ D, pyDigit c = true) ∧
          (T = [] ∨ ∃ u, T = [u] ∧ isUpperAZ u = true) := by
  intro n
  induction n with
  | zero => intro acc s code rest h; simp [codeLoop] at h
  | succ n ih =>
    intro acc s code rest h
    simp only [codeLoop] at h
    by_cases hw : s.takeWhile pySpace = []
    · rw [if_pos hw] at h; exact absurd h (by simp)
    · rw [if_neg hw] at h
      have hwall : ∀ c ∈ s.takeWhile pySpace, pySpace c = true :=
        fun c hc => List.mem_takeWhile_imp hc
      have hsplit : s.takeWhile pySpace ++ s.dropWhile pySpace = s :=
        List.takeWhile_append_dropWhile pySpace s
      set w := s.takeWhile pySpace with hwdef
      set r := s.dropWhile pySpace with hrdef
      by_cases hl : r.takeWhile isUpperAZ = []
      · rw [if_pos hl] at h
        by_cases hd : r.takeWhile pyDigit = []
        · rw [if_pos hd] at h; exact absurd h (by simp)
        · rw [if_neg hd] at h
          have hdall : ∀ c ∈ r.takeWhile pyDigit, pyDigit c = true :=
            fun c hc => List.mem_takeWhile_imp hc
          have hrsplit : r.takeWhile pyDigit ++ r.dropWhile pyDigit = r :=
            List.takeWhile_append_dropWhile pyDigit r
          set d := r.takeWhile pyDigit with hddef
          set r3 := r.dropWhile pyDigit with hr3def
          have hwfilter : w.filter (fun c => !(pySpace c)) = [] :=
            filter_eq_nil_of (fun c hc => by simp [hwall c hc])
          have hdfilter : d.filter (fun c => !(pySpace c)) = d :=
            filter_eq_self_of (fun c hc => by simp [pyDigit_not_pySpace (hdall c hc)])
          cases hr3 : r3 with
          | nil =>
            rw [hr3] at h
            have hcode : acc ++ w ++ d = code ∧ ([] : List Char) = rest := by
              have := h
              simp only [Option.some.injEq, Prod.mk.injEq] at this
              exact this
            obtain ⟨hcode1, hcode2⟩ := hcode
            refine ⟨w ++ d, ?_, ?_, [], d, [], ?_, by simp, hd, hdall, Or.inl rfl⟩
            · rw [← hcode1, List.append_assoc]
            · rw [← hcode2, List.append_nil]
              rw [← hsplit, ← hrsplit, hr3, List.append_nil]
            · rw [List.filter_append, hwfilter, hdfilter]
              simp
          | cons c r4 =>
            rw [hr3] at h
            by_cases hcu : isUpperAZ c = true
            · have : acc ++ w ++ d ++ [c] = code ∧ r4 = rest := by
                simp only [hcu, if_true, Option.some.injEq, Prod.mk.injEq] at h
                exact h
              obtain ⟨hcode1, hcode2⟩ := this
              refine ⟨w ++ (d ++ [c]), ?_, ?_, [], d, [c], ?_, by simp, hd, hdall,
                Or.inr ⟨c, rfl, hcu⟩⟩
              · rw [← hcode1]; simp [List.append_assoc]
              · rw [← hcode2, ← hsplit, ← hrsplit, hr3]
                simp [List.append_assoc]
              · rw [List.filter_append, hwfilter, List.filter_append, hdfilter]
                simp [upper_not_pySpace hcu]
            · simp only [Bool.not_eq_true] at hcu
              have : acc ++ w ++ d = code ∧ c :: r4 = rest := by
                simp only [hcu, Bool.false_eq_true, if_false, Option.some.injEq,
                  Prod.mk.injEq] at h
                exact h
              obtain ⟨hcode1, hcode2⟩ := this
              refine ⟨w ++ d, ?_, ?_, [], d, [], ?_, by simp, hd, hdall, Or.inl rfl⟩
              · rw [← hcode1, List.append_assoc]
              · rw [← hcode2, ← hsplit, ← hrsplit, hr3]
                simp [List.append_assoc]
              · rw [List.filter_append, hwfilter, hdfilter]
                simp
      · rw [if_neg hl] at h
        have hlall : ∀ c ∈ r.takeWhile isUpperAZ, isUpperAZ c = true :=
          fun c hc => List.mem_takeWhile_imp hc
        have hrsplit : r.takeWhile isUpperAZ ++ r.dropWhile isUpperAZ = r :=
          List.takeWhile_append_dropWhile isUpperAZ r
        set l := r.takeWhile isUpperAZ with hldef
        set r2 := r.dropWhile isUpperAZ with hr2def
        obtain ⟨m', hm1, hm2, L', D, T, hfil, hLu, hD, hDd, hT⟩ :=
          ih (acc ++ w ++ l) r2 code rest h
        have hwfilter : w.filter (fun c => !(pySpace c)) = [] :=
          filter_eq_nil_of (fun c hc => by simp [hwall c hc])
        have hlfilter : l.filter (fun c => !(pySpace c)) = l :=
          filter_eq_self_of (fun c hc => by simp [upper_not_pySpace (hlall c hc)])
        refine ⟨w ++ (l ++ m'), ?_, ?_, l ++ L', D, T, ?_, ?_, hD, hDd, hT⟩
        · rw [hm1]; simp [List.append_assoc]
        · rw [← hsplit, ← hrsplit, hm2]; simp [List.append_assoc]
        · rw [List.filter_append, hwfilter, List.filter_append, hlfilter, hfil]
          simp [List.append_assoc]
        · intro c hc
          rcases List.mem_append.mp hc with hc | hc
          · exact hlall c hc
          · exact hLu c hc

/-- Soundness of the full code group parser. -/
lemma parseCode_sound {s code rest : List Char} (h : parseCode s = some (code, rest)) :
    s = code ++ rest ∧ code ≠ [] ∧
    ∃ L D T, code.filter (fun c => !(pySpace c)) = L ++ (D ++ T) ∧ L ≠ [] ∧
      (∀ c ∈ L, isUpperAZ c = true) ∧ D ≠ [] ∧ (∀ c ∈ D, pyDigit c = true) ∧
      (T = [] ∨ ∃ u, T = [u] ∧ isUpperAZ u = true) := by
  unfold parseCode at h
  by_cases h0 : s.takeWhile isUpperAZ = []
  · rw [if_pos h0] at h; exact absurd h (by simp)
  · rw [if_neg h0] at h
    have h0all : ∀ c ∈ s.takeWhile isUpperAZ, isUpperAZ c = true :=
      fun c hc => List.mem_takeWhile_imp hc
    have hsplit : s.takeWhile isUpperAZ ++ s.dropWhile isUpperAZ = s :=
      List.takeWhile_append_dropWhile isUpperAZ s
    obtain ⟨m, hm1, hm2, L, D, T, hfil, hLu, hD, hDd, hT⟩ :=
      codeLoop_sound (s.length + 1) (s.takeWhile isUpperAZ) (s.dropWhile isUpperAZ)
        code rest h
    have h0filter : (s.takeWhile isUpperAZ).filter (fun c => !(pySpace c)) =
        s.takeWhile isUpperAZ :=
      filter_eq_self_of (fun c hc => by simp [upper_not_pySpace (h0all c hc)])
    refine ⟨?_, ?_, s.takeWhile isUpperAZ ++ L, D, T, ?_, by simp [h0], ?_, hD, hDd, hT⟩
    · rw [← hsplit, hm2, hm1, List.append_assoc]
    · rw [hm1]; intro hcontra; simp [h0] at hcontra
    · rw [hm1, List.filter_append, h0filter, hfil]
      simp [List.append_assoc]
    · intro c hc
      rcases List.mem_append.mp hc with hc | hc
      · exact h0all c hc
      · exact hLu c hc

/-- Soundness of the credits-group check: on success the input splits
into a whitespace run, an opening parenthesis, the credits text free of
closing parentheses, the closing parenthesis, and the tail. -/
lemma parenAfter_sound {s w2 cr tl : List Char}
    (h : parenAfter s = some (w2, cr, tl)) :
    s = w2 ++ ('(' :: (cr ++ ')' :: tl)) ∧
    (∀ c ∈ w2, pySpace c = true) ∧ (∀ c ∈ cr, c ≠ ')') := by
  unfold parenAfter at h
  split at h
  · rename_i a r2 hdw
    split at h
    · rename_i ha
      subst ha
      split at h
      · rename_i b tl' hdw2
        split at h
        · rename_i hb
          subst hb
          simp only [Option.some.injEq, Prod.mk.injEq] at h
          obtain ⟨hw2, hcr, htl⟩ := h
          have hsp : s.takeWhile pySpace ++ s.dropWhile pySpace = s :=
            List.takeWhile_append_dropWhile pySpace s
          have hsp2 : r2.takeWhile (fun c => c != ')') ++
              r2.dropWhile (fun c => c != ')') = r2 :=
            List.takeWhile_append_dropWhile _ r2
          refine ⟨?_, ?_, ?_⟩
          · rw [← hw2, ← hcr, ← htl]
            conv_lhs => rw [← hsp, hdw, ← hsp2, hdw2]
          · intro c hc; rw [← hw2] at hc; exact List.mem_takeWhile_imp hc
          · intro c hc
            rw [← hcr] at hc
            have := List.mem_takeWhile_imp hc
            simpa using this
        · exact absurd h (by simp)
      · exact absurd h (by simp)
    · exact absurd h (by simp)
  · exact absurd h (by simp)

/-- Completeness of the credits-group check on inputs of the matched
shape; used to show the regex engine could not have stopped one
character earlier. -/
lemma parenAfter_of_shape {w2 cr tl : List Char}
    (hw : ∀ c ∈ w2, pySpace c = true) (hcr : ∀ c ∈ cr, c ≠ ')') :
    parenAfter (w2 ++ ('(' :: (cr ++ ')' :: tl))) = some (w2, cr, tl) := by
  have h1 := takeWhile_all_append (p := pySpace) w2 ('(' :: (cr ++ ')' :: tl)) hw
    (by intro a ha; injection ha with ha; rw [← ha]; exact pySpace_lparen)
  have h2 := takeWhile_all_append (p := fun c => c != ')') cr (')' :: tl)
    (fun c hc => by simpa using hcr c hc)
    (by intro a ha; injection ha with ha; simp [← ha])
  unfold parenAfter
  simp only [h1.1, h1.2, h2.1, h2.2]
  simp

/-- Soundness of the lazy title scan: the consumed title extends the
accumulator by a nonempty block, the input splits as title, whitespace,
parenthesised credits and tail, and (because the scan is
shortest-first) a title of two or more characters cannot end in a
space. -/
lemma scanTitle_sound :
    ∀ (s acc ti w2 cr tl : List Char), scanTitle acc s = some (ti, w2, cr, tl) →
      ∃ d, ti = acc ++ d ∧ d ≠ [] ∧ s = d ++ (w2 ++ ('(' :: (cr ++ ')' :: tl))) ∧
        (∀ c ∈ w2, pySpace c = true) ∧ (∀ c ∈ cr, c ≠ ')') ∧
        (2 ≤ d.length → d.getLast? ≠ some ' ') := by
  intro s
  induction s with
  | nil => intro acc ti w2 cr tl h; simp [scanTitle] at h
  | cons c s' ih =>
    intro acc ti w2 cr tl h
    simp only [scanTitle] at h
    cases hpa : parenAfter s' with
    | some x =>
      obtain ⟨w2', cr', tl'⟩ := x
      rw [hpa] at h
      simp only [Option.some.injEq, Prod.mk.injEq] at h
      obtain ⟨hti, hw2, hcr, htl⟩ := h
      obtain ⟨hsplit, hwall, hcrall⟩ := parenAfter_sound hpa
      subst hw2; subst hcr; subst htl
      refine ⟨[c], hti.symm, by simp, by simpa using hsplit, hwall, hcrall, ?_⟩
      intro hlen
      simp at hlen
    | none =>
      rw [hpa] at h
      obtain ⟨d', hti, hd', hsplit, hwall, hcrall, hlast⟩ :=
        ih (acc ++ [c]) ti w2 cr tl h
      refine ⟨c :: d', by simpa [List.append_assoc] using hti, by simp, ?_, hwall,
        hcrall, ?_⟩
      · rw [hsplit]; simp
      · intro _ hcontra
        rcases d' with _ | ⟨x, _ | ⟨y, d3⟩⟩
        · exact hd' rfl
        · rw [List.getLast?_cons_cons] at hcontra
          have hx : x = ' ' := by simpa using hcontra
          subst hx
          rw [hsplit] at hpa
          rw [show ([' '] : List Char) ++ (w2 ++ ('(' :: (cr ++ ')' :: tl))) =
            (' ' :: w2) ++ ('(' :: (cr ++ ')' :: tl)) from by simp] at hpa
          rw [parenAfter_of_shape ?_ hcrall] at hpa
          · exact absurd hpa (by simp)
          · intro a ha
            rcases List.mem_cons.mp ha with rfl | ha
            · exact pySpace_space
            · exact hwall a ha
        · rw [List.getLast?_cons_cons] at hcontra
          exact hlast (by simp) hcontra

/-- Soundness of the whitespace give-back loop: the chosen run length
is between one and the supplied bound, and the title scan succeeds on
the remainder after that many characters. -/
lemma tryTitle_sound :
    ∀ (t : Nat) (rest : List Char) (t' : Nat) (ti w2 cr tl : List Char),
      tryTitle rest t = some (t', ti, w2, cr, tl) →
      1 ≤ t' ∧ t' ≤ t ∧ scanTitle [] (rest.drop t') = some (ti, w2, cr, tl) := by
  intro t
  induction t with
  | zero => intro rest t' ti w2 cr tl h; simp [tryTitle] at h
  | succ t ih =>
    intro rest t' ti w2 cr tl h
    simp only [tryTitle] at h
    cases hsc : scanTitle [] (rest.drop (t + 1)) with
    | some x =>
      obtain ⟨ti', w2', cr', tl'⟩ := x
      rw [hsc] at h
      simp only [Option.some.injEq, Prod.mk.injEq] at h
      obtain ⟨ht', hti, hw2, hcr, htl⟩ := h
      subst ht'; subst hti; subst hw2; subst hcr; subst htl
      exact ⟨by omega, Nat.le_refl _, hsc⟩
    | none =>
      rw [hsc] at h
      obtain ⟨h1, h2, h3⟩ := ih rest t' ti w2 cr tl h
      exact ⟨h1, Nat.le_succ_of_le h2, h3⟩

/-- Structural soundness of the full header match: on success the
input line decomposes as code, mandatory whitespace, nonempty title,
optional whitespace, the parenthesised credits free of closing
parentheses, and a discarded tail; and the code consists of capitals,
digits and at most one trailing capital once its whitespace is
dropped. -/
lemma headerMatch_sound {v code ti cr : List Char}
    (h : headerMatch v = some (code, ti, cr)) :
    ∃ w1 w2 tl, v = code ++ (w1 ++ (ti ++ (w2 ++ ('(' :: (cr ++ ')' :: tl))))) ∧
      w1 ≠ [] ∧ (∀ c ∈ w1, pySpace c = true) ∧ ti ≠ [] ∧
      (∀ c ∈ w2, pySpace c = true) ∧ (∀ c ∈ cr, c ≠ ')') ∧
      code ≠ [] ∧
      ∃ L D T, code.filter (fun c => !(pySpace c)) = L ++ (D ++ T) ∧ L ≠ [] ∧
        (∀ c ∈ L, isUpperAZ c = true) ∧ D ≠ [] ∧ (∀ c ∈ D, pyDigit c = true) ∧
        (T = [] ∨ ∃ u, T = [u] ∧ isUpperAZ u = true) := by
  unfold headerMatch at h
  split at h
  · exact absurd h (by simp)
  · rename_i code' rest hpc
    split at h
    · exact absurd h (by simp)
    · rename_i hw1
      split at h
      · rename_i t' ti' w2' cr' tl' htt
        simp only [Option.some.injEq, Prod.mk.injEq] at h
        obtain ⟨hc1, hc2, hc3⟩ := h
        subst hc1; subst hc2; subst hc3
        obtain ⟨ht1, ht2, hsc⟩ := tryTitle_sound _ rest t' ti' w2' cr' tl' htt
        obtain ⟨d, hd_ti, hdne, hdecomp, hw2all, hcrall, _⟩ :=
          scanTitle_sound _ [] ti' w2' cr' tl' hsc
        rw [List.nil_append] at hd_ti
        subst hd_ti
        obtain ⟨hsplit, hcodene, L, D, T, hfil, hLne, hLu, hD, hDd, hT⟩ :=
          parseCode_sound hpc
        refine ⟨rest.take t', w2', tl', ?_, ?_, ?_, hdne, hw2all, hcrall, hcodene,
          L, D, T, hfil, hLne, hLu, hD, hDd, hT⟩
        · rw [hsplit]
          congr 1
          conv_lhs => rw [← List.take_append_drop t' rest]
          rw [hdecomp]
        · intro hcontra
          have hlen := congrArg List.length hcontra
          simp only [List.length_take, List.length_nil] at hlen
          have hrne : rest ≠ [] := by
            intro hre
            rw [hre] at hw1
            exact hw1 rfl
          have : 0 < rest.length := List.length_pos.mpr hrne
          omega
        · exact take_all_of_le_takeWhile rest t' ht2
      · exact absurd h (by simp)

/-- A line has a parenthesis group exactly when it splits at an
opening parenthesis with a closing parenthesis after it. -/
lemma hasParenGroup_iff :
    ∀ l : List Char, hasParenGroup l = true ↔
      ∃ u w, l = u ++ '(' :: w ∧ ')' ∈ w := by
  intro l
  induction l with
  | nil =>
    simp only [hasParenGroup]
    constructor
    · intro h; exact absurd h (by simp)
    · rintro ⟨u, w, hu, -⟩
      exact absurd hu (by simp)
  | cons c t ih =>
    rw [hasParenGroup]
    by_cases hc : c = '('
    · rw [if_pos hc]
      subst hc
      constructor
      · intro h
        exact ⟨[], t, rfl, contains_iff_mem.mp h⟩
      · rintro ⟨u, w, hu, hw⟩
        cases u with
        | nil =>
          simp only [List.nil_append, List.cons.injEq] at hu
          rw [contains_iff_mem, hu.2]
          exact hw
        | cons c' u' =>
          simp only [List.cons_append, List.cons.injEq] at hu
          rw [contains_iff_mem, hu.2]
          exact List.mem_append_right _ (List.mem_cons_of_mem _ hw)
    · rw [if_neg hc, ih]
      constructor
      · rintro ⟨u, w, hu, hw⟩
        exact ⟨c :: u, w, by rw [hu]; rfl, hw⟩
      · rintro ⟨u, w, hu, hw⟩
        cases u with
        | nil =>
          simp only [List.nil_append, List.cons.injEq] at hu
          exact absurd hu.1 hc
        | cons c' u' =>
          simp only [List.cons_append, List.cons.injEq] at hu
          exact ⟨u', w, hu.2, hw⟩

lemma hasParenGroup_mem_rparen {l : List Char} (h : hasParenGroup l = true) :
    ')' ∈ l := by
  obtain ⟨u, w, hu, hw⟩ := (hasParenGroup_iff l).mp h
  rw [hu]
  exact List.mem_append_right _ (List.mem_cons_of_mem _ hw)

/-- Any successful header match contains a parenthesis group. -/
lemma headerMatch_hasParenGroup {v : List Char}
    {x : List Char × List Char × List Char}
    (h : headerMatch v = some x) : hasParenGroup v = true := by
  obtain ⟨code, ti, cr⟩ := x
  obtain ⟨w1, w2, tl, hdec, -⟩ := headerMatch_sound h
  rw [hasParenGroup_iff]
  refine ⟨code ++ w1 ++ ti ++ w2, cr ++ ')' :: tl, ?_, by simp⟩
  rw [hdec]
  simp [List.append_assoc]

/-- A parenthesis group survives passing to a superlist. -/
lemma hasParenGroup_sublist {l m : List Char} (h : List.Sublist l m) :
    hasParenGroup l = true → hasParenGroup m = true := by
  induction h with
  | slnil => intro h'; exact h'
  | cons a _ ih =>
    intro h'
    have hm := ih h'
    rw [hasParenGroup]
    by_cases ha : a = '('
    · rw [if_pos ha]
      exact contains_iff_mem.mpr (hasParenGroup_mem_rparen hm)
    · rw [if_neg ha]
      exact hm
  | cons₂ a hsub ih =>
    intro h'
    rw [hasParenGroup] at h' ⊢
    by_cases ha : a = '('
    · rw [if_pos ha] at h' ⊢
      exact contains_iff_mem.mpr (hsub.subset (contains_iff_mem.mp h'))
    · rw [if_neg ha] at h' ⊢
      exact ih h'

/-- A characterwise map that only ever turns characters into spaces
cannot create a parenthesis group. -/
lemma hasParenGroup_map {f : Char → Char} (hf : ∀ c, f c = c ∨ f c = ' ') :
    ∀ l : List Char, hasParenGroup (l.map f) = true → hasParenGroup l = true := by
  intro l
  induction l with
  | nil => intro h; simp [hasParenGroup] at h
  | cons c t ih =>
    intro h
    rw [List.map_cons, hasParenGroup] at h
    rw [hasParenGroup]
    by_cases hfc : f c = '('
    · have hc : c = '(' := by
        rcases hf c with h1 | h1
        · rw [h1] at hfc; exact hfc
        · rw [h1] at hfc; exact absurd hfc (by decide)
      rw [if_pos hfc] at h
      rw [if_pos hc]
      have hmem := contains_iff_mem.mp h
      rw [List.mem_map] at hmem
      obtain ⟨y, hy, hfy⟩ := hmem
      have hyr : y = ')' := by
        rcases hf y with h1 | h1
        · rw [h1] at hfy; exact hfy
        · rw [h1] at hfy; exact absurd hfy (by decide)
      rw [contains_iff_mem, ← hyr]
      exact hy
    · rw [if_neg hfc] at h
      by_cases hc : c = '('
      · rw [if_pos hc]
        exact contains_iff_mem.mpr (hasParenGroup_mem_rparen (ih h))
      · rw [if_neg hc]
        exact ih h

/-- Whitespace-run collapsing yields a sublist of the input with its
whitespace turned into spaces. -/
lemma collapseAux_sublist :
    ∀ (l : List Char) (flag : Bool), List.Sublist (collapseAux flag l) (l.map wsToSpace) := by
  intro l
  induction l with
  | nil => intro flag; simp [collapseAux]
  | cons c t ih =>
    intro flag
    rw [List.map_cons]
    simp only [collapseAux]
    by_cases hc : pySpace c = true
    · rw [if_pos hc]
      have hw : wsToSpace c = ' ' := by simp [wsToSpace, hc]
      rw [hw]
      cases flag with
      | true => exact (ih true).cons ' '
      | false =>
        rw [if_neg (by simp)]
        exact (ih true).cons₂ ' '
    · rw [if_neg hc]
      have hw : wsToSpace c = c := by simp [wsToSpace, hc]
      rw [hw]
      exact (ih false).cons₂ c

/-- Stripping yields a sublist. -/
lemma pyStrip_sublist {l : List Char} : List.Sublist (pyStrip l) l := by
  unfold pyStrip
  have h1 : List.Sublist ((l.dropWhile pySpace).reverse.dropWhile pySpace)
      (l.dropWhile pySpace).reverse := List.dropWhile_sublist pySpace
  have h2 := h1.reverse
  rw [List.reverse_reverse] at h2
  exact h2.trans (List.dropWhile_sublist pySpace)

/-- On ASCII input the NFKC model and the NBSP replacement are the
identity (NFKC itself is the identity on ASCII). -/
lemma ascii_nfkc_replace_id {l : List Char} (h : ∀ c ∈ l, c.toNat < 128) :
    replaceNbsp (l.map nfkcChar) = l := by
  induction l with
  | nil => rfl
  | cons c t ih =>
    have hc : c.toNat < 128 := h c (List.mem_cons_self c t)
    have hnf : nfkcChar c = c := by
      unfold nfkcChar
      rw [if_neg ?_]
      intro hm
      simp only [compatSpaceCodes, List.mem_cons, List.not_mem_nil, or_false] at hm
      omega
    have hnb : c ≠ nbsp := by
      intro hcn
      rw [hcn] at hc
      exact absurd hc (by decide)
    rw [List.map_cons]
    unfold replaceNbsp
    rw [List.map_cons, hnf, if_neg hnb]
    have := ih (fun x hx => h x (List.mem_cons_of_mem c hx))
    unfold replaceNbsp at this
    rw [this]

/-- Relation forbidding two adjacent spaces; after whitespace-run
collapsing no two neighbouring characters are both spaces. -/
def noTwoSpaces (a b : Char) : Prop := ¬(a = ' ' ∧ b = ' ')

lemma collapseAux_ws :
    ∀ (l : List Char) (flag : Bool) (c : Char), c ∈ collapseAux flag l →
      pySpace c = true → c = ' ' := by
  intro l
  induction l with
  | nil => intro flag c hc; simp [collapseAux] at hc
  | cons a t ih =>
    intro flag c hc hsp
    simp only [collapseAux] at hc
    by_cases hpa : pySpace a = true
    · rw [if_pos hpa] at hc
      cases flag with
      | true => exact ih true c hc hsp
      | false =>
        rcases List.mem_cons.mp hc with rfl | hc
        · rfl
        · exact ih true c hc hsp
    · rw [if_neg hpa] at hc
      rcases List.mem_cons.mp hc with rfl | hc
      · exact absurd hsp hpa
      · exact ih false c hc hsp

lemma collapseAux_true_head :
    ∀ (l : List Char) (a : Char), (collapseAux true l).head? = some a →
      pySpace a = false := by
  intro l
  induction l with
  | nil => intro a h; simp [collapseAux] at h
  | cons c t ih =>
    intro a h
    simp only [collapseAux] at h
    by_cases hpc : pySpace c = true
    · rw [if_pos hpc] at h
      exact ih a h
    · rw [if_neg hpc] at h
      simp only [List.head?_cons, Option.some.injEq] at h
      subst h
      exact Bool.eq_false_iff.mpr hpc

lemma collapseAux_chain :
    ∀ (l : List Char) (flag : Bool), List.Chain' noTwoSpaces (collapseAux flag l) := by
  intro l
  induction l with
  | nil => intro flag; simp [collapseAux]
  | cons a t ih =>
    intro flag
    simp only [collapseAux]
    by_cases hpa : pySpace a = true
    · rw [if_pos hpa]
      cases flag with
      | true => exact ih true
      | false =>
        rw [if_neg (by simp)]
        rw [List.chain'_cons']
        refine ⟨?_, ih true⟩
        intro y hy
        have := collapseAux_true_head t y hy
        intro hcontra
        rw [hcontra.2, pySpace_space] at this
        exact absurd this (by simp)
    · rw [if_neg hpa]
      rw [List.chain'_cons']
      refine ⟨?_, ih false⟩
      intro y hy
      intro hcontra
      rw [hcontra.1, pySpace_space] at hpa
      exact hpa rfl

lemma chain'_dropWhile {α : Type} {R : α → α → Prop} {p : α → Bool} {l : List α}
    (h : List.Chain' R l) : List.Chain' R (l.dropWhile p) := by
  have h2 : List.Chain' R (l.takeWhile p ++ l.dropWhile p) := by
    rw [List.takeWhile_append_dropWhile]; exact h
  exact (List.chain'_append.mp h2).2.1

lemma noTwoSpaces_symm {a b : Char} (h : noTwoSpaces a b) : noTwoSpaces b a := by
  intro hcontra
  exact h ⟨hcontra.2, hcontra.1⟩

lemma pyStrip_chain {l : List Char} (h : List.Chain' noTwoSpaces l) :
    List.Chain' noTwoSpaces (pyStrip l) := by
  unfold pyStrip
  have h1 := chain'_dropWhile (p := pySpace) h
  have h2 : List.Chain' (flip noTwoSpaces) (l.dropWhile pySpace) :=
    h1.imp (fun a b hab => noTwoSpaces_symm hab)
  have h3 : List.Chain' noTwoSpaces (l.dropWhile pySpace).reverse :=
    List.chain'_reverse.mpr h2
  have h4 := chain'_dropWhile (p := pySpace) h3
  have h5 : List.Chain' (flip noTwoSpaces)
      ((l.dropWhile pySpace).reverse.dropWhile pySpace) :=
    h4.imp (fun a b hab => noTwoSpaces_symm hab)
  exact List.chain'_reverse.mpr h5

lemma dropWhile_subset_self {α : Type} {p : α → Bool} {l : List α} :
    ∀ c ∈ l.dropWhile p, c ∈ l :=
  fun _ hc => (List.dropWhile_sublist p).subset hc

lemma pyStrip_subset {l : List Char} : ∀ c ∈ pyStrip l, c ∈ l := by
  intro c hc
  unfold pyStrip at hc
  rw [List.mem_reverse] at hc
  have hc2 := dropWhile_subset_self c hc
  rw [List.mem_reverse] at hc2
  exact dropWhile_subset_self c hc2

/-- Every whitespace character surviving normalization is a plain
space. -/
lemma normalizeModel_ws {l : List Char} :
    ∀ c ∈ normalizeModel l, pySpace c = true → c = ' ' := by
  intro c hc hsp
  unfold normalizeModel at hc
  exact collapseAux_ws _ false c (pyStrip_subset c hc) hsp

/-- A normalized line never has two adjacent spaces. -/
lemma normalizeModel_chain {l : List Char} :
    List.Chain' noTwoSpaces (normalizeModel l) :=
  pyStrip_chain (collapseAux_chain _ false)

/-- Title trimming: on a line whose whitespace is all plain spaces and
has no space runs - which normalization guarantees - a matched title
neither starts nor ends with whitespace. -/
lemma headerMatch_trim {v code ti cr : List Char}
    (hws : ∀ c ∈ v, pySpace c = true → c = ' ')
    (hch : List.Chain' noTwoSpaces v)
    (h : headerMatch v = some (code, ti, cr)) :
    ti ≠ [] ∧ (∀ a, ti.head? = some a → pySpace a = false) ∧
      (∀ a, ti.getLast? = some a → pySpace a = false) := by
  unfold headerMatch at h
  split at h
  · exact absurd h (by simp)
  · rename_i code' rest hpc
    split at h
    · exact absurd h (by simp)
    · rename_i hw1
      split at h
      · rename_i t' ti' w2' cr' tl' htt
        simp only [Option.some.injEq, Prod.mk.injEq] at h
        obtain ⟨hc1, hc2, hc3⟩ := h
        subst hc1; subst hc2; subst hc3
        obtain ⟨hsplit, -, -⟩ := parseCode_sound hpc
        have hmemv : ∀ c ∈ rest, c ∈ v := by
          intro c hc; rw [hsplit]; exact List.mem_append_right _ hc
        -- the leading whitespace run has length exactly one
        obtain ⟨a, htw⟩ : ∃ a, rest.takeWhile pySpace = [a] := by
          cases htw : rest.takeWhile pySpace with
          | nil => exact absurd htw hw1
          | cons a tw2 =>
            cases htw2 : tw2 with
            | nil => exact ⟨a, rfl⟩
            | cons b tw3 =>
              exfalso
              subst htw2
              have hamem : a ∈ rest.takeWhile pySpace := by rw [htw]; simp
              have hbmem : b ∈ rest.takeWhile pySpace := by rw [htw]; simp
              have ha : a = ' ' :=
                hws a (hmemv a ((List.takeWhile_sublist pySpace).subset hamem))
                  (List.mem_takeWhile_imp hamem)
              have hb : b = ' ' :=
                hws b (hmemv b ((List.takeWhile_sublist pySpace).subset hbmem))
                  (List.mem_takeWhile_imp hbmem)
              have hre : rest = a :: b :: (tw3 ++ rest.dropWhile pySpace) := by
                have hx := List.takeWhile_append_dropWhile pySpace rest
                rw [htw] at hx
                simpa using hx.symm
              have hchr : List.Chain' noTwoSpaces rest := by
                rw [hsplit] at hch
                exact (List.chain'_append.mp hch).2.1
              rw [hre, List.chain'_cons] at hchr
              exact hchr.1 ⟨ha, hb⟩
        obtain ⟨ht1, ht2, hsc⟩ := tryTitle_sound _ rest t' ti' w2' cr' tl' htt
        rw [htw] at ht2
        simp only [List.length_singleton] at ht2
        have ht'1 : t' = 1 := by omega
        subst ht'1
        obtain ⟨d, hd_ti, hdne, hdecomp, -, -, hlast⟩ :=
          scanTitle_sound _ [] ti' w2' cr' tl' hsc
        rw [List.nil_append] at hd_ti
        subst hd_ti
        have hrw : rest.drop 1 = rest.dropWhile pySpace := by
          have hx := List.takeWhile_append_dropWhile pySpace rest
          rw [htw] at hx
          conv_lhs => rw [← hx]
          simp
        have hhead : ∀ a0, ti'.head? = some a0 → pySpace a0 = false := by
          intro a0 hha0
          cases hti : ti' with
          | nil => exact absurd hti hdne
          | cons b ti2 =>
            subst hti
            simp only [List.head?_cons, Option.some.injEq] at hha0
            subst hha0
            apply head?_dropWhile (p := pySpace) (l := rest)
            rw [← hrw, hdecomp]
            simp
        refine ⟨hdne, hhead, ?_⟩
        intro a1 hla1
        cases hti : ti' with
        | nil => exact absurd hti hdne
        | cons b ti2 =>
          subst hti
          cases hti2 : ti2 with
          | nil =>
            subst hti2
            simp only [List.getLast?_singleton, Option.some.injEq] at hla1
            rw [← hla1]
            exact hhead b (by simp)
          | cons c2 ti3 =>
            subst hti2
            cases hpb : pySpace a1 with
            | false => rfl
            | true =>
              exfalso
              have hmem : a1 ∈ b :: c2 :: ti3 := List.mem_of_getLast?_eq_some hla1
              have hmv : a1 ∈ v := by
                apply hmemv
                apply List.drop_subset 1
                rw [hdecomp]
                exact List.mem_append_left _ hmem
              have := hws a1 hmv hpb
              subst this
              exact hlast (by simp) hla1
      · exact absurd h (by simp)

/-- A cleaned code of the matched shape passes the executable shape
test. -/
lemma codeShapeU_of_parts {L D T : List Char} (hLne : L ≠ [])
    (hLu : ∀ c ∈ L, isUpperAZ c = true) (hD : D ≠ [])
    (hDd : ∀ c ∈ D, pyDigit c = true)
    (hT : T = [] ∨ ∃ u, T = [u] ∧ isUpperAZ u = true) :
    codeShapeU (L ++ (D ++ T)) = true := by
  obtain ⟨d0, D', rfl⟩ : ∃ d0 D', D = d0 :: D' := by
    cases D with
    | nil => exact absurd rfl hD
    | cons d0 D' => exact ⟨d0, D', rfl⟩
  have hhead1 : ∀ a, ((d0 :: D') ++ T).head? = some a → isUpperAZ a = false := by
    intro a ha
    simp only [List.cons_append, List.head?_cons, Option.some.injEq] at ha
    rw [← ha]
    exact pyDigit_not_upper (hDd d0 (List.mem_cons_self d0 D'))
  have hhead2 : ∀ a, T.head? = some a → pyDigit a = false := by
    intro a ha
    rcases hT with rfl | ⟨u, rfl, hu⟩
    · simp at ha
    · simp only [List.head?_cons, Option.some.injEq] at ha
      rw [← ha]
      exact upper_not_pyDigit hu
  have h1 := takeWhile_all_append (p := isUpperAZ) L ((d0 :: D') ++ T) hLu hhead1
  have h2 := takeWhile_all_append (p := pyDigit) (d0 :: D') T hDd hhead2
  simp only [codeShapeU, h1.1, h1.2, h2.1, h2.2]
  rcases hT with rfl | ⟨u, rfl, hu⟩
  · simp [List.isEmpty_iff, hLne]
  · simp [List.isEmpty_iff, hLne, hu]

/-- Inversion of the emission step at lines 72-78 of the source. -/
lemma parseLine_inv {s : String} {r : CourseRecord} (h : parseLine s = some r) :
    ∃ code ti cr, headerMatch (normalizeModel s.data) = some (code, ti, cr) ∧
      r.code = String.mk (code.filter (fun c => c != ' ')) ∧
      r.title = String.mk ti ∧ r.credits = String.mk cr := by
  unfold parseLine at h
  split at h
  · rename_i code ti cr hm
    simp only [Option.some.injEq] at h
    subst h
    exact ⟨code, ti, cr, hm, rfl, rfl, rfl⟩
  · exact absurd h (by simp)

lemma replaceNbsp_map (l : List Char) :
    replaceNbsp (l.map nfkcChar) = l.map normChar := by
  unfold replaceNbsp normChar
  rw [List.map_map]
  rfl

lemma normChar_pySpace {c : Char} (h : pySpace c = true) :
    pySpace (normChar c) = true := by
  unfold normChar nfkcChar
  by_cases hm : c.toNat ∈ compatSpaceCodes
  · rw [if_pos hm]
    decide
  · rw [if_neg hm]
    by_cases hn : c = nbsp
    · rw [if_pos hn]
      exact pySpace_space
    · rw [if_neg hn]
      exact h

lemma collapseAux_allws :
    ∀ (w : List Char) (flag : Bool) (t : List Char), w ≠ [] →
      (∀ c ∈ w, pySpace c = true) →
      collapseAux flag (w ++ t) =
        if flag then collapseAux true t else ' ' :: collapseAux true t := by
  intro w
  induction w with
  | nil => intro flag t hne _; exact absurd rfl hne
  | cons x w' ih =>
    intro flag t _ hall
    have hx : pySpace x = true := hall x (List.mem_cons_self x w')
    have hrec : collapseAux true (w' ++ t) = collapseAux true t := by
      cases hw' : w' with
      | nil => simp
      | cons y w'' =>
        rw [← hw']
        have := ih true t (by rw [hw']; simp)
          (fun c hc => hall c (List.mem_cons_of_mem x hc))
        simpa using this
    simp only [List.cons_append, collapseAux, List.append_eq]
    rw [if_pos hx, hrec]

/-- Collapsing is invariant under space expansion, for any
characterwise normalization map that fixes the space and sends
whitespace to whitespace - in particular for the charwise action of
NFKC composed with the NBSP replacement, whatever its values on the
unchanged characters: each space of the original and the corresponding
whitespace run of the variant collapse to the same single space. -/
lemma spaceExpand_collapse {a b : List Char} (h : SpaceExpand a b)
    (f : Char → Char) (hf1 : f ' ' = ' ')
    (hf2 : ∀ c, pySpace c = true → pySpace (f c) = true) :
    ∀ flag, collapseAux flag (a.map f) = collapseAux flag (b.map f) := by
  induction h with
  | nil => intro flag; rfl
  | @keep c a' b' hc _ ih =>
    intro flag
    simp only [List.map_cons, collapseAux]
    by_cases hpc : pySpace (f c) = true
    · rw [if_pos hpc, if_pos hpc, ih true]
    · rw [if_neg hpc, if_neg hpc, ih false]
  | @expand w a' b' hwne hwall _ ih =>
    intro flag
    have hL : collapseAux flag ((' ' :: a').map f) =
        if flag then collapseAux true (a'.map f)
        else ' ' :: collapseAux true (a'.map f) := by
      simp only [List.map_cons, hf1, collapseAux]
      rw [if_pos pySpace_space]
    have hR : collapseAux flag ((w ++ b').map f) =
        if flag then collapseAux true (b'.map f)
        else ' ' :: collapseAux true (b'.map f) := by
      rw [List.map_append]
      apply collapseAux_allws
      · intro hcontra
        cases hw : w with
        | nil => exact hwne hw
        | cons y w'' => rw [hw] at hcontra; simp at hcontra
      · intro c hc
        rw [List.mem_map] at hc
        obtain ⟨c0, hc0, hceq⟩ := hc
        rw [← hceq]
        exact hf2 c0 (hwall c0 hc0)
    rw [hL, hR, ih true]

/-- Space expansion does not change the normalized line. -/
lemma spaceExpand_normalize {a b : List Char} (h : SpaceExpand a b) :
    normalizeModel a = normalizeModel b := by
  unfold normalizeModel collapseWs
  rw [replaceNbsp_map, replaceNbsp_map,
    spaceExpand_collapse h normChar (by decide) (fun c hc => normChar_pySpace hc) false]

lemma pyTruthy_iff (o : Option String) :
    pyTruthy o = true ↔ ∃ u, o = some u ∧ u ≠ "" := by
  cases o with
  | none => simp [pyTruthy]
  | some s =>
    unfold pyTruthy
    constructor
    · intro h
      refine ⟨s, rfl, ?_⟩
      intro hc
      subst hc
      exact absurd h (by decide)
    · rintro ⟨u, hu, hne⟩
      simp only [Option.some.injEq] at hu
      subst hu
      cases s with
      | mk d =>
        cases d with
        | nil => exact absurd rfl hne
        | cons x xs => simp [List.isEmpty]

/-- The department loop never raises an exception. -/
lemma pipelineEvents_no_raised :
    ∀ (deps : List (String × List CourseRecord × InsertResponse)) (m : String),
      ScrapeEvent.raised m ∉ pipelineEvents deps := by
  intro deps
  induction deps with
  | nil => intro m h; simp [pipelineEvents] at h
  | cons d rest ih =>
    intro m h
    simp only [pipelineEvents, List.mem_append] at h
    rcases h with h | h
    · unfold deptEvents at h
      rcases List.mem_cons.mp h with h | h
      · exact absurd h (by simp)
      · by_cases h1 : d.2.1.isEmpty = true
        · rw [if_pos h1] at h
          simp at h
        · rw [if_neg h1] at h
          rcases List.mem_cons.mp h with h | h
          · exact absurd h (by simp)
          · by_cases h2 : pyTruthy d.2.2.error = true
            · rw [if_pos h2] at h
              simp at h
            · rw [if_neg h2] at h
              simp at h
    · exact ih m h

/-- C1: for every raw header line whose normalization matches the
structural pattern - code, whitespace, title, optional whitespace,
parenthesised credits, tail - the emitted record's code field equals
the matched code substring with all its internal spaces removed (and
the title and credits fields are the matched groups). -/
theorem C1_code_despaced (s : String) (r : CourseRecord)
    (h : parseLine s = some r) :
    ∃ code w1 ti w2 cr tl,
      normalizeModel s.data =
        code ++ (w1 ++ (ti ++ (w2 ++ ('(' :: (cr ++ ')' :: tl))))) ∧
      w1 ≠ [] ∧ (∀ c ∈ w1, pySpace c = true) ∧ (∀ c ∈ w2, pySpace c = true) ∧
      r.code = String.mk (code.filter (fun c => c != ' ')) ∧
      r.title = String.mk ti ∧ r.credits = String.mk cr := by
  obtain ⟨code, ti, cr, hm, hrc, hrt, hcrr⟩ := parseLine_inv h
  obtain ⟨w1, w2, tl, hdec, hw1ne, hw1, -, hw2, -, -, -⟩ := headerMatch_sound hm
  exact ⟨code, w1, ti, w2, cr, tl, hdec, hw1ne, hw1, hw2, hrc, hrt, hcrr⟩

/-- Witness for C1 at a multi-word subject code; the extra conjunct
checks that the multi-word header and its single-word form emit the
same concatenated code. -/
theorem C1_code_despaced_witness :
    (∃ code w1 ti w2 cr tl,
      normalizeModel ("L ARCH 300 Advanced Landscape Topics (5) I&S" : String).data =
        code ++ (w1 ++ (ti ++ (w2 ++ ('(' :: (cr ++ ')' :: tl))))) ∧
      w1 ≠ [] ∧ (∀ c ∈ w1, pySpace c = true) ∧ (∀ c ∈ w2, pySpace c = true) ∧
      (CourseRecord.mk "LARCH300" "Advanced Landscape Topics" "5").code =
        String.mk (code.filter (fun c => c != ' ')) ∧
      (CourseRecord.mk "LARCH300" "Advanced Landscape Topics" "5").title =
        String.mk ti ∧
      (CourseRecord.mk "LARCH300" "Advanced Landscape Topics" "5").credits =
        String.mk cr) ∧
    Option.map CourseRecord.code
        (parseLine "L ARCH 300 Advanced Landscape Topics (5) I&S") =
      Option.map CourseRecord.code
        (parseLine "LARCH 300 Advanced Landscape Topics (5) I&S") :=
  ⟨C1_code_despaced "L ARCH 300 Advanced Landscape Topics (5) I&S"
    (CourseRecord.mk "LARCH300" "Advanced Landscape Topics" "5") (by decide),
   by decide⟩

/-- C2: the three example headers of the specification parse to
exactly the stated records. -/
theorem C2_spec_examples :
    parseLine "ANTH 100 Introduction to Anthropology (5) SSc" =
      some ⟨"ANTH100", "Introduction to Anthropology", "5"⟩ ∧
    parseLine "L ARCH 300 Advanced Landscape Topics (5) I&S" =
      some ⟨"LARCH300", "Advanced Landscape Topics", "5"⟩ ∧
    parseLine "B E 200 Built Environment Foundations (5)" =
      some ⟨"BE200", "Built Environment Foundations", "5"⟩ :=
  ⟨rfl, rfl, rfl⟩

/-- C3: for every matching header line the credits field is exactly
the text of the first parenthesis group following the title (the text
between the opening parenthesis after the title and the next closing
parenthesis), preserved verbatim - it contains no closing parenthesis
and may be empty or non-numeric. -/
theorem C3_credits_verbatim (s : String) (r : CourseRecord)
    (h : parseLine s = some r) :
    ∃ pre w2 cr tl,
      normalizeModel s.data = pre ++ (w2 ++ ('(' :: (cr ++ ')' :: tl))) ∧
      (∀ c ∈ w2, pySpace c = true) ∧ (∀ c ∈ cr, c ≠ ')') ∧
      r.credits = String.mk cr ∧
      ∃ code w1 ti, pre = code ++ (w1 ++ ti) ∧ r.title = String.mk ti := by
  obtain ⟨code, ti, cr, hm, hrc, hrt, hcrr⟩ := parseLine_inv h
  obtain ⟨w1, w2, tl, hdec, hw1ne, hw1, htine, hw2, hcrall, -⟩ := headerMatch_sound hm
  refine ⟨code ++ (w1 ++ ti), w2, cr, tl, ?_, hw2, hcrall, hcrr,
    code, w1, ti, rfl, hrt⟩
  rw [hdec]
  simp [List.append_assoc]

/-- Witness for C3 at a non-numeric credits text; the extra conjunct
checks the empty credits case. -/
theorem C3_credits_verbatim_witness :
    (∃ pre w2 cr tl,
      normalizeModel ("CSE 498 Senior Project (var.) NW" : String).data =
        pre ++ (w2 ++ ('(' :: (cr ++ ')' :: tl))) ∧
      (∀ c ∈ w2, pySpace c = true) ∧ (∀ c ∈ cr, c ≠ ')') ∧
      (CourseRecord.mk "CSE498" "Senior Project" "var.").credits = String.mk cr ∧
      ∃ code w1 ti, pre = code ++ (w1 ++ ti) ∧
        (CourseRecord.mk "CSE498" "Senior Project" "var.").title = String.mk ti) ∧
    parseLine "CSE 498 Senior Project ()" = some ⟨"CSE498", "Senior Project", ""⟩ :=
  ⟨C3_credits_verbatim "CSE 498 Senior Project (var.) NW"
    ⟨"CSE498", "Senior Project", "var."⟩ (by decide), by decide⟩

/-- C4: a header line containing no parenthesis group (no opening
parenthesis with a closing parenthesis after it) yields no record and
no error - the line is skipped and the collected course list is
exactly the list collected from the remaining lines.  The first part
reads the condition on the line as the matcher sees it (after the
normalization of lines 68-70, through which match behaviour is in fact
decided); the second part covers the raw-line reading for ASCII lines,
where normalization provably cannot create a parenthesis group.  For
raw lines outside ASCII the raw reading is not a property of the
program at all: NFKC compatibility decompositions can introduce
parentheses (for example the fullwidth or parenthesized forms). -/
theorem C4_no_paren_group_skipped (s : String) (rest : List String) :
    (hasParenGroup (normalizeModel s.data) = false →
      parseLine s = none ∧ collectCourses (s :: rest) = collectCourses rest) ∧
    ((∀ c ∈ s.data, c.toNat < 128) → hasParenGroup s.data = false →
      parseLine s = none ∧ collectCourses (s :: rest) = collectCourses rest) := by
  have key : hasParenGroup (normalizeModel s.data) = false → parseLine s = none := by
    intro hng
    cases hm : headerMatch (normalizeModel s.data) with
    | none => simp [parseLine, hm]
    | some x =>
      have hgr := headerMatch_hasParenGroup hm
      rw [hng] at hgr
      exact absurd hgr (by simp)
  have listeq : parseLine s = none →
      collectCourses (s :: rest) = collectCourses rest := by
    intro hn
    simp [collectCourses, List.filterMap_cons, hn]
  constructor
  · intro hng
    exact ⟨key hng, listeq (key hng)⟩
  · intro hascii hraw
    have hfsp : ∀ c, wsToSpace c = c ∨ wsToSpace c = ' ' := by
      intro c
      unfold wsToSpace
      by_cases hc : pySpace c = true
      · rw [if_pos hc]; exact Or.inr rfl
      · rw [if_neg hc]; exact Or.inl rfl
    have hng : hasParenGroup (normalizeModel s.data) = false := by
      cases hgn : hasParenGroup (normalizeModel s.data) with
      | false => rfl
      | true =>
        exfalso
        have hid : replaceNbsp (s.data.map nfkcChar) = s.data :=
          ascii_nfkc_replace_id hascii
        have hsub : List.Sublist (normalizeModel s.data) (s.data.map wsToSpace) := by
          unfold normalizeModel collapseWs
          rw [hid]
          exact pyStrip_sublist.trans (collapseAux_sublist s.data false)
        have h1 := hasParenGroup_sublist hsub hgn
        have h2 := hasParenGroup_map hfsp s.data h1
        rw [hraw] at h2
        exact absurd h2 (by simp)
    exact ⟨key hng, listeq (key hng)⟩

/-- Witness for C4 at the specification's example line (through the
raw-ASCII reading, which implies the normalized one). -/
theorem C4_no_paren_group_skipped_witness :
    parseLine "Prerequisite: ANTH 100." = none ∧
      collectCourses ["Prerequisite: ANTH 100.",
        "ANTH 100 Introduction to Anthropology (5) SSc"] =
      collectCourses ["ANTH 100 Introduction to Anthropology (5) SSc"] :=
  (C4_no_paren_group_skipped "Prerequisite: ANTH 100."
    ["ANTH 100 Introduction to Anthropology (5) SSc"]).2 (by decide) (by decide)

/-- C5: two raw header lines that differ only in replacing single
regular spaces by nonempty runs of whitespace (non-breaking spaces
included) normalize to identical strings, so both match or fail to
match the header pattern identically.  The first conjunct states the
invariance for EVERY characterwise normalization map that fixes the
space and keeps whitespace whitespace - so it does not depend on the
values of the NFKC model on the unchanged characters; the remaining
conjuncts instantiate it to the embedded pipeline and to the parser. -/
theorem C5_normalization_invariant (a b : List Char) (h : SpaceExpand a b) :
    (∀ f : Char → Char, f ' ' = ' ' →
      (∀ c, pySpace c = true → pySpace (f c) = true) →
      pyStrip (collapseWs (a.map f)) = pyStrip (collapseWs (b.map f))) ∧
    normalizeModel a = normalizeModel b ∧
    parseLine (String.mk a) = parseLine (String.mk b) := by
  have hn : normalizeModel a = normalizeModel b := spaceExpand_normalize h
  refine ⟨?_, hn, ?_⟩
  · intro f hf1 hf2
    unfold collapseWs
    rw [spaceExpand_collapse h f hf1 hf2 false]
  · unfold parseLine
    rw [show (String.mk a).data = a from rfl, show (String.mk b).data = b from rfl, hn]

/-- Witness for C5: a header whose spaces are variously replaced by a
non-breaking space, a double space, a space and a tab. -/
theorem C5_normalization_invariant_witness :
    normalizeModel ['A', ' ', 'B', ' ', '1', ' ', 'T', ' ', '(', '2', ')'] =
      normalizeModel ['A', nbsp, 'B', ' ', ' ', '1', ' ', 'T', '\t', '(', '2', ')'] ∧
    parseLine (String.mk ['A', ' ', 'B', ' ', '1', ' ', 'T', ' ', '(', '2', ')']) =
      parseLine (String.mk
        ['A', nbsp, 'B', ' ', ' ', '1', ' ', 'T', '\t', '(', '2', ')']) :=
  (C5_normalization_invariant _ _
    (SpaceExpand.keep (by decide)
      (SpaceExpand.expand [nbsp] (by decide) (by decide)
        (SpaceExpand.keep (by decide)
          (SpaceExpand.expand [' ', ' '] (by decide) (by decide)
            (SpaceExpand.keep (by decide)
              (SpaceExpand.expand [' '] (by decide) (by decide)
                (SpaceExpand.keep (by decide)
                  (SpaceExpand.expand ['\t'] (by decide) (by decide)
                    (SpaceExpand.keep (by decide)
                      (SpaceExpand.keep (by decide)
                        (SpaceExpand.keep (by decide) SpaceExpand.nil)))))))))))).2

/-- C6: an index anchor whose href contains the substring glossary or
a path separator produces no department entry, and every discovered
department comes from an anchor whose href is free of both. -/
theorem C6_department_filter :
    (∀ (a : Anchor) (h : String), a.href = some h →
      (infixB "glossary".data h.data = true ∨ h.data.contains '/' = true) →
      departmentEntry a = none) ∧
    (∀ (anchors : List Anchor) (d : String × String × String),
      d ∈ discoverDepartments anchors →
      ∃ a, a ∈ anchors ∧ ∃ h, a.href = some h ∧
        infixB "glossary".data h.data = false ∧ h.data.contains '/' = false ∧
        departmentEntry a = some d) := by
  constructor
  · intro a h ha hbad
    simp only [departmentEntry, ha]
    rw [if_neg ?_]
    intro hc
    simp only [Bool.and_eq_true] at hc
    obtain ⟨⟨⟨⟨-, -⟩, h3⟩, h4⟩, -⟩ := hc
    rcases hbad with hb | hb
    · rw [hb] at h3
      exact absurd h3 (by simp)
    · rw [hb] at h4
      exact absurd h4 (by simp)
  · intro anchors d hd
    unfold discoverDepartments at hd
    rw [List.mem_filterMap] at hd
    obtain ⟨a, ha, hfa⟩ := hd
    refine ⟨a, ha, ?_⟩
    have hfa2 := hfa
    cases hhr : a.href with
    | none =>
      simp only [departmentEntry, hhr] at hfa2
      exact absurd hfa2 (by simp)
    | some h =>
      simp only [departmentEntry, hhr] at hfa2
      by_cases hcond : ((!(h.data == [])) && suffixB ".html".data h.data &&
          (!(infixB "glossary".data h.data)) && (!(h.data.contains '/')) &&
          decide (5 < h.data.length)) = true
      · have hc := hcond
        simp only [Bool.and_eq_true] at hc
        obtain ⟨⟨⟨⟨-, -⟩, h3⟩, h4⟩, -⟩ := hc
        refine ⟨h, rfl, ?_, ?_, hfa⟩
        · simpa using h3
        · simpa using h4
      · rw [if_neg hcond] at hfa2
        exact absurd hfa2 (by simp)

/-- Witness for C6: a glossary link is rejected and a plain department
link is discovered with a clean href. -/
theorem C6_department_filter_witness :
    departmentEntry ⟨some "glossary.html", "Glossary"⟩ = none ∧
    (∃ a, a ∈ [Anchor.mk (some "anth.html") "Anthropology (ANTH)"] ∧
      ∃ h, a.href = some h ∧
        infixB "glossary".data h.data = false ∧ h.data.contains '/' = false ∧
        departmentEntry a = some ("anth", "Anthropology (ANTH)",
          "https://www.washington.edu/students/crscat/anth.html")) :=
  ⟨C6_department_filter.1 ⟨some "glossary.html", "Glossary"⟩ "glossary.html" rfl
      (Or.inl (by decide)),
    C6_department_filter.2 [Anchor.mk (some "anth.html") "Anthropology (ANTH)"]
      ("anth", "Anthropology (ANTH)",
        "https://www.washington.edu/students/crscat/anth.html") (by decide)⟩

/-- C7 counterexample: with both configuration names present in the
environment but the endpoint URL equal to the empty string, startup
still raises the configuration error, contradicting the claim that
presence of both values suffices for the pipeline to proceed. -/
theorem C7_counterexample :
    envUrlEmpty "SUPABASE_URL" ≠ none ∧ envUrlEmpty "SUPABASE_KEY" ≠ none ∧
    startupCheck envUrlEmpty =
      Except.error "SUPABASE_URL and SUPABASE_KEY must be set in .env file." :=
  ⟨by decide, by decide, rfl⟩

/-- C7 as amended: startup raises the configuration error exactly when
either value is absent or empty; when both are present and nonempty no
error is raised and the pipeline proceeds. -/
theorem C7_config_check (env : String → Option String) :
    (startupCheck env = Except.ok () ↔
      (∃ u, env "SUPABASE_URL" = some u ∧ u ≠ "") ∧
      (∃ k, env "SUPABASE_KEY" = some k ∧ k ≠ "")) ∧
    ((env "SUPABASE_URL" = none ∨ env "SUPABASE_URL" = some "" ∨
      env "SUPABASE_KEY" = none ∨ env "SUPABASE_KEY" = some "") →
      startupCheck env =
        Except.error "SUPABASE_URL and SUPABASE_KEY must be set in .env file.") := by
  constructor
  · constructor
    · intro hok
      by_cases h1 : pyTruthy (env "SUPABASE_URL") = true
      · by_cases h2 : pyTruthy (env "SUPABASE_KEY") = true
        · exact ⟨(pyTruthy_iff _).mp h1, (pyTruthy_iff _).mp h2⟩
        · exfalso
          have h2f : pyTruthy (env "SUPABASE_KEY") = false := Bool.eq_false_iff.mpr h2
          unfold startupCheck at hok
          rw [if_pos (by rw [h1, h2f]; rfl)] at hok
          exact absurd hok (by simp)
      · exfalso
        have h1f : pyTruthy (env "SUPABASE_URL") = false := Bool.eq_false_iff.mpr h1
        unfold startupCheck at hok
        rw [if_pos (by rw [h1f]; rfl)] at hok
        exact absurd hok (by simp)
    · rintro ⟨hu, hk⟩
      have h1 : pyTruthy (env "SUPABASE_URL") = true := (pyTruthy_iff _).mpr hu
      have h2 : pyTruthy (env "SUPABASE_KEY") = true := (pyTruthy_iff _).mpr hk
      unfold startupCheck
      rw [if_neg (by rw [h1, h2]; decide)]
  · intro hbad
    have hcond : ((!(pyTruthy (env "SUPABASE_URL"))) ||
        (!(pyTruthy (env "SUPABASE_KEY")))) = true := by
      rcases hbad with h | h | h | h
      · rw [h]; rfl
      · rw [h]
        rw [show pyTruthy (some "") = false from by decide]
        rfl
      · rw [h]
        rw [show pyTruthy (none : Option String) = false from rfl]
        simp
      · rw [h]
        rw [show pyTruthy (some "") = false from by decide]
        simp
    unfold startupCheck
    rw [if_pos hcond]

/-- Witness for the amended C7: a fully configured environment
proceeds without error. -/
theorem C7_config_check_witness : startupCheck envGood = Except.ok () :=
  (C7_config_check envGood).1.mpr
    ⟨⟨"https://example.supabase.co", rfl, by decide⟩,
     ⟨"service-key", rfl, by decide⟩⟩

/-- C8: when the insert response for a department carries a truthy
error indicator, the department's events are exactly the scraping
banner, one insert call, and the error line printed to standard
output; the loop appends the remaining departments' events unchanged
(processing continues), the insert is called exactly once (no retry),
and no exception is ever raised. -/
theorem C8_insert_error_logged (dep_name : String) (courses : List CourseRecord)
    (resp : InsertResponse) (rest : List (String × List CourseRecord × InsertResponse))
    (e : String) (hc : courses ≠ []) (he : resp.error = some e) (hne : e ≠ "") :
    deptEvents dep_name courses resp =
      [ScrapeEvent.printed ("Scraping " ++ dep_name ++ "..."),
       ScrapeEvent.insertCall "uw_courses" courses,
       ScrapeEvent.printed ("Error inserting courses for " ++ dep_name ++ ": " ++ e)] ∧
    pipelineEvents ((dep_name, courses, resp) :: rest) =
      deptEvents dep_name courses resp ++ pipelineEvents rest ∧
    (deptEvents dep_name courses resp).countP isInsertCall = 1 ∧
    (∀ m, ScrapeEvent.raised m ∉ pipelineEvents ((dep_name, courses, resp) :: rest)) := by
  have hce : ¬(courses.isEmpty = true) := by
    intro h'
    exact hc (List.isEmpty_iff.mp h')
  have htruthy : pyTruthy resp.error = true := by
    rw [he]
    exact (pyTruthy_iff _).mpr ⟨e, rfl, hne⟩
  have hdept : deptEvents dep_name courses resp =
      [ScrapeEvent.printed ("Scraping " ++ dep_name ++ "..."),
       ScrapeEvent.insertCall "uw_courses" courses,
       ScrapeEvent.printed ("Error inserting courses for " ++ dep_name ++ ": " ++ e)] := by
    unfold deptEvents
    rw [if_neg hce, if_pos htruthy, he]
    rfl
  refine ⟨hdept, rfl, ?_, fun m => pipelineEvents_no_raised _ m⟩
  rw [hdept]
  rfl

/-- Witness for C8 at a concrete department whose insert fails. -/
theorem C8_insert_error_logged_witness :
    deptEvents "Anthropology (ANTH)"
        [CourseRecord.mk "ANTH100" "Introduction to Anthropology" "5"]
        (InsertResponse.mk (some "duplicate key value")) =
      [ScrapeEvent.printed ("Scraping " ++ "Anthropology (ANTH)" ++ "..."),
       ScrapeEvent.insertCall "uw_courses"
         [CourseRecord.mk "ANTH100" "Introduction to Anthropology" "5"],
       ScrapeEvent.printed ("Error inserting courses for " ++ "Anthropology (ANTH)" ++
         ": " ++ "duplicate key value")] ∧
    pipelineEvents [("Anthropology (ANTH)",
        [CourseRecord.mk "ANTH100" "Introduction to Anthropology" "5"],
        InsertResponse.mk (some "duplicate key value"))] =
      deptEvents "Anthropology (ANTH)"
        [CourseRecord.mk "ANTH100" "Introduction to Anthropology" "5"]
        (InsertResponse.mk (some "duplicate key value")) ++ pipelineEvents [] ∧
    (deptEvents "Anthropology (ANTH)"
        [CourseRecord.mk "ANTH100" "Introduction to Anthropology" "5"]
        (InsertResponse.mk (some "duplicate key value"))).countP isInsertCall = 1 ∧
    (∀ m, ScrapeEvent.raised m ∉ pipelineEvents [("Anthropology (ANTH)",
        [CourseRecord.mk "ANTH100" "Introduction to Anthropology" "5"],
        InsertResponse.mk (some "duplicate key value"))]) :=
  C8_insert_error_logged "Anthropology (ANTH)"
    [CourseRecord.mk "ANTH100" "Introduction to Anthropology" "5"]
    (InsertResponse.mk (some "duplicate key value")) [] "duplicate key value"
    (by decide) rfl (by decide)

/-- C9 counterexample: the pattern's backslash-d matches every Unicode
decimal digit, so a header with NFKC-invariant Arabic-Indic digits is
matched and its emitted code fails the ASCII digit shape the claim
asserts for every record. -/
theorem C9_counterexample :
    parseLine (String.mk ['A', 'N', 'T', 'H', ' ', arabicThree, arabicZero,
        arabicZero, ' ', 'I', 'n', 't', 'r', 'o', ' ', '(', '5', ')']) =
      some ⟨String.mk ['A', 'N', 'T', 'H', arabicThree, arabicZero, arabicZero],
        "Intro", "5"⟩ ∧
    codeShape (String.mk
      ['A', 'N', 'T', 'H', arabicThree, arabicZero, arabicZero]).data = false :=
  ⟨by decide, by decide⟩

/-- C9 as amended: every emitted record's code is one or more ASCII
capitals, then one or more Unicode decimal digits (the pattern's
backslash-d class), then at most one ASCII capital, and contains no
whitespace. -/
theorem C9_code_shape_unicode (s : String) (r : CourseRecord)
    (h : parseLine s = some r) :
    codeShapeU r.code.data = true ∧
    r.code.data.all (fun c => !(pySpace c)) = true := by
  obtain ⟨code, ti, cr, hm, hrc, -, -⟩ := parseLine_inv h
  obtain ⟨w1, w2, tl, hdec, -, -, -, -, -, -, L, D, T, hfil, hLne, hLu, hD, hDd, hT⟩ :=
    headerMatch_sound hm
  have hmem : ∀ c ∈ code, c ∈ normalizeModel s.data := by
    intro c hc
    rw [hdec]
    exact List.mem_append_left _ hc
  have hswitch : code.filter (fun c => c != ' ') =
      code.filter (fun c => !(pySpace c)) := by
    apply filter_congr_of
    intro c hc
    by_cases hs : pySpace c = true
    · have hcs : c = ' ' := normalizeModel_ws c (hmem c hc) hs
      subst hcs
      decide
    · have hf : pySpace c = false := Bool.eq_false_iff.mpr hs
      have hcne : c ≠ ' ' := by
        intro hcc
        rw [hcc, pySpace_space] at hf
        exact absurd hf (by simp)
      simp [hf, hcne]
  have hdata : r.code.data = code.filter (fun c => !(pySpace c)) := by
    rw [hrc]
    exact hswitch
  constructor
  · rw [hdata, hfil]
    exact codeShapeU_of_parts hLne hLu hD hDd hT
  · rw [List.all_eq_true]
    intro c hcm
    rw [hdata] at hcm
    exact (List.mem_filter.mp hcm).2

/-- Witness for amended C9, at a header with a letter-suffixed course
number and at the Arabic-Indic-digit record of the counterexample. -/
theorem C9_code_shape_unicode_witness :
    (codeShapeU (CourseRecord.mk "MATH126B" "Calculus III" "5").code.data = true ∧
      (CourseRecord.mk "MATH126B" "Calculus III" "5").code.data.all
        (fun c => !(pySpace c)) = true) ∧
    (codeShapeU (CourseRecord.mk
        (String.mk ['A', 'N', 'T', 'H', arabicThree, arabicZero, arabicZero])
        "Intro" "5").code.data = true ∧
      (CourseRecord.mk
        (String.mk ['A', 'N', 'T', 'H', arabicThree, arabicZero, arabicZero])
        "Intro" "5").code.data.all (fun c => !(pySpace c)) = true) :=
  ⟨C9_code_shape_unicode "MATH 126B Calculus III (5) NW"
    (CourseRecord.mk "MATH126B" "Calculus III" "5") (by decide),
   C9_code_shape_unicode (String.mk ['A', 'N', 'T', 'H', ' ', arabicThree,
      arabicZero, arabicZero, ' ', 'I', 'n', 't', 'r', 'o', ' ', '(', '5', ')'])
    (CourseRecord.mk
      (String.mk ['A', 'N', 'T', 'H', arabicThree, arabicZero, arabicZero])
      "Intro" "5") (by decide)⟩

/-- C10: every emitted record has a nonempty title with no leading or
trailing whitespace, and a credits field containing no closing
parenthesis. -/
theorem C10_title_credits_clean (s : String) (r : CourseRecord)
    (h : parseLine s = some r) :
    r.title ≠ "" ∧ (∀ a, r.title.data.head? = some a → pySpace a = false) ∧
    (∀ a, r.title.data.getLast? = some a → pySpace a = false) ∧
    r.credits.data.all (fun c => c != ')') = true := by
  obtain ⟨code, ti, cr, hm, -, hrt, hcrr⟩ := parseLine_inv h
  obtain ⟨htine, hhead, hlast⟩ :=
    headerMatch_trim normalizeModel_ws normalizeModel_chain hm
  obtain ⟨w1, w2, tl, -, -, -, -, -, hcrall, -⟩ := headerMatch_sound hm
  refine ⟨?_, ?_, ?_, ?_⟩
  · rw [hrt]
    intro hcontra
    apply htine
    have := congrArg String.data hcontra
    simpa using this
  · intro a ha
    rw [hrt] at ha
    exact hhead a ha
  · intro a ha
    rw [hrt] at ha
    exact hlast a ha
  · rw [hcrr, List.all_eq_true]
    intro c hcm
    simpa using hcrall c hcm

/-- Witness for C10 at the third spec example. -/
theorem C10_title_credits_clean_witness :
    (CourseRecord.mk "BE200" "Built Environment Foundations" "5").title ≠ "" ∧
    (∀ a, (CourseRecord.mk "BE200" "Built Environment Foundations" "5").title.data.head? =
      some a → pySpace a = false) ∧
    (∀ a, (CourseRecord.mk "BE200" "Built Environment Foundations" "5").title.data.getLast? =
      some a → pySpace a = false) ∧
    (CourseRecord.mk "BE200" "Built Environment Foundations" "5").credits.data.all
      (fun c => c != ')') = true :=
  C10_title_credits_clean "B E 200 Built Environment Foundations (5)"
    (CourseRecord.mk "BE200" "Built Environment Foundations" "5") (by decide)

end ClassScraper
